import Mathlib

/-!
Verification of the fs-proxy filesystem driver (src/main.rs, src/inode.rs,
src/mapping.rs) against its natural-language specification.

The Rust data model and request handlers are shallowly embedded as pure Lean
functions.  Machine integers (u64, u32, u16) are modelled as `Nat` with an
explicit `% 2 ^ w` at the points where the Rust code wraps or truncates.
Host-filesystem I/O (tokio `File::open`, `metadata`, `seek`, `read_exact`)
is modelled by explicit oracles passed as parameters; each fallible host
operation returns an `Option`.
-/

namespace FsProxy

/-- Rust `INode` from src/inode.rs (lines 7-21): a virtual node is either a
`File` (a bind leaf carrying the redirect `target` path) or a `Folder`
carrying a `BTreeMap` of named children.  The `BTreeMap<String, Rc<RefCell<INode>>>`
is modelled as an association list `List (String × INode)`; the BTreeMap
invariants (keys strictly sorted, hence unique) are stated as explicit
hypotheses where a proof needs them. -/
inductive INode where
  | file (ino parent : Nat) (name target : String) : INode
  | folder (ino parent : Nat) (name : String) (entries : List (String × INode)) : INode

/-- Rust `INode::get_name` (src/inode.rs lines 37-42). -/
def INode.getName : INode → String
  | .file _ _ n _ => n
  | .folder _ _ n _ => n

/-- Rust `INode::get_ino` (src/inode.rs lines 44-49). -/
def INode.getIno : INode → Nat
  | .file i _ _ _ => i
  | .folder i _ _ _ => i

/-- Rust `INode::get_parent` (src/inode.rs lines 65-70). -/
def INode.getParent : INode → Nat
  | .file _ p _ _ => p
  | .folder _ p _ _ => p

/-- Whether the node is a `Folder` variant. -/
def INode.isFolder : INode → Bool
  | .file _ _ _ _ => false
  | .folder _ _ _ _ => true

/-- The `entries` map of a `Folder` ([] for a `File`). -/
def INode.entriesOf : INode → List (String × INode)
  | .file _ _ _ _ => []
  | .folder _ _ _ es => es

/-- Rust `INode::lookup` (src/inode.rs lines 24-35): `entries.get(&name)` on a
folder, `None` on a file.  `BTreeMap::get` on a unique-keyed map is
`List.lookup` on the association list. -/
def INode.lookup (t : INode) (name : String) : Option INode :=
  match t with
  | .file _ _ _ _ => none
  | .folder _ _ _ es => List.lookup name es

mutual

/-- Rust `list_recursively` (src/inode.rs lines 116-128): the node itself followed
by the recursive listings of its children in `BTreeMap` (key) order —
a pre-order traversal. -/
def INode.listRec : INode → List INode
  | .file i p n t => [.file i p n t]
  | .folder i p n es => (INode.folder i p n es) :: listRecL es

/-- Rust's `list_recursively` folded over an entry list (`entries.values().flat_map(...)`). -/
def listRecL : List (String × INode) → List INode
  | [] => []
  | (_, c) :: rest => c.listRec ++ listRecL rest

end

/-- Rust `list_current` (src/inode.rs lines 130-137): `entries.values()` of a
folder, empty for a file. -/
def INode.listCurrent : INode → List INode
  | .file _ _ _ _ => []
  | .folder _ _ _ es => es.map Prod.snd

mutual

/-- Id assignment pass of `From<Rc<RefCell<INode>>> for INodeTable`
(src/inode.rs lines 158-172).  The Rust code collects
`table = root.list_recursively()` and then sets `set_ino(idx + 1)` on the
shared `Rc` node at each table index; since `list_recursively` enumerates
every tree node exactly once in pre-order, this equals assigning
consecutive ids in pre-order directly on the tree, threading a counter.
Returns the re-identified tree and the next free id. -/
def assignInos : Nat → INode → INode × Nat
  | c, .file _ p n t => (.file c p n t, c + 1)
  | c, .folder _ p n es =>
      let r := assignInosL (c + 1) es
      (.folder c p n r.1, r.2)

/-- Pass `assignInos` threaded over an entry list in key order. -/
def assignInosL : Nat → List (String × INode) → List (String × INode) × Nat
  | c, [] => ([], c)
  | c, (k, t) :: rest =>
      let r1 := assignInos c t
      let r2 := assignInosL r1.2 rest
      ((k, r1.1) :: r2.1, r2.2)

end

mutual

/-- Rust `INode::auto_set_parent` (src/inode.rs lines 72-82): set this node's
`parent` field to `p`, then recursively set every child's parent to this
folder's own `ino`. -/
def INode.autoSetParent : INode → Nat → INode
  | .file i _ n t, p => .file i p n t
  | .folder i _ n es, p => .folder i p n (autoSetParentL es i)

/-- Pass `auto_set_parent` mapped over an entry list with the enclosing folder's ino. -/
def autoSetParentL : List (String × INode) → Nat → List (String × INode)
  | [], _ => []
  | (k, c) :: rest, pi => (k, c.autoSetParent pi) :: autoSetParentL rest pi

end

/-- Rust `INodeTable` (src/inode.rs lines 141-145): the dense id-indexed table
plus the root node. -/
structure INodeTable where
  table : List INode
  root : INode

/-- Rust `From<Rc<RefCell<INode>>> for INodeTable` (src/inode.rs lines 158-172):
assign pre-order ids starting at 1, then `auto_set_parent(0)` from the root,
then the table is the pre-order listing of the (mutated) tree.  In Rust the
flat table aliases the tree nodes through `Rc`, so both mutation passes are
visible in the table; functionally this is listing the tree after both
passes. -/
def INodeTable.fromRoot (root : INode) : INodeTable :=
  let t1 := (assignInos 1 root).1
  let t2 := t1.autoSetParent 0
  { table := t2.listRec, root := t2 }

/-- The wrapping index computation `ino as usize - 1` on a 64-bit host
(u64 arithmetic wraps in release builds): `(ino - 1) mod 2^64`, written
additively so it is total on `Nat`. -/
def wrapIdx (ino : Nat) : Nat := (ino + (2 ^ 64 - 1)) % 2 ^ 64

/-- Rust `INodeTable::get_by_ino` (src/inode.rs lines 153-156):
`self.table.get(ino as usize - 1).cloned()`. -/
def INodeTable.getByIno (fs : INodeTable) (ino : Nat) : Option INode :=
  fs.table.get? (wrapIdx ino)

/-- Rust `INodeTable::lookup` (src/inode.rs lines 148-151):
`self.table.get(ino as usize - 1).and_then(|inode| inode.borrow().lookup(name))`. -/
def INodeTable.lookup (fs : INodeTable) (ino : Nat) (name : String) : Option INode :=
  (fs.table.get? (wrapIdx ino)).bind (fun inode => inode.lookup name)

/-! ## Error codes (`libc` constants, Linux values) used by src/main.rs -/

def ENOENT : Nat := 2
def Eio : Nat := 5
def EBADF : Nat := 9
def ENOTDIR : Nat := 20
def EISDIR : Nat := 21
def ENFILE : Nat := 23

/-- Rust `fuser::FileType` values produced by src/main.rs. -/
inductive FType where
  | directory
  | regularFile
  | symlink
  | namedPipe
deriving DecidableEq

/-- Rust `fuser::FileAttr` as populated by src/main.rs.  Timestamps are seconds
since `UNIX_EPOCH` as `Nat` (the code builds them as
`UNIX_EPOCH + Duration::from_secs(x as u64)`). -/
structure FileAttr where
  ino : Nat
  size : Nat
  blocks : Nat
  atime : Nat
  mtime : Nat
  ctime : Nat
  crtime : Nat
  kind : FType
  perm : Nat
  nlink : Nat
  uid : Nat
  gid : Nat
  rdev : Nat
  flags : Nat
  blksize : Nat
deriving DecidableEq

/-- Rust `HELLO_DIR_ATTR` (src/main.rs lines 44-60): the constant attribute record
replied for folders by `getattr`, with a hardcoded `ino` of 1. -/
def HELLO_DIR_ATTR : FileAttr :=
  { ino := 1, size := 0, blocks := 0, atime := 0, mtime := 0, ctime := 0,
    crtime := 0, kind := .directory, perm := 0o755, nlink := 2, uid := 501,
    gid := 20, rdev := 0, flags := 0, blksize := 512 }

/-- Rust `make_folder_attr` (src/main.rs lines 127-145): same synthetic constants,
but keyed by the node's own `ino`. -/
def makeFolderAttr (inode : INode) : FileAttr :=
  { ino := inode.getIno, size := 0, blocks := 0, atime := 0, mtime := 0,
    ctime := 0, crtime := 0, kind := .directory, perm := 0o755, nlink := 2,
    uid := 501, gid := 20, rdev := 0, flags := 0, blksize := 512 }

/-- Host `std::fs::Metadata` of a stat'ed target, as consumed by
`MappingFS::getattr` (src/main.rs lines 93-124).  `atime`/`mtime`/`ctime`
are `i64` seconds, modelled as `Int`. -/
structure HostMeta where
  isDir : Bool
  isFile : Bool
  isSymlink : Bool
  size : Nat
  blocks : Nat
  atime : Int
  mtime : Int
  ctime : Int
  mode : Nat
  nlink : Nat
  uid : Nat
  gid : Nat
  rdev : Nat
  blksize : Nat

/-- Rust `x as u64` on an `i64` value: two's-complement wrap into `[0, 2^64)`. -/
def i64AsU64 (x : Int) : Nat := (x % (2 ^ 64 : Int)).toNat

/-- Rust `MappingFS::getattr` (src/main.rs lines 93-124): open + stat the target
path on the host (modelled by the oracle `stat`, `none` = any host I/O
failure), then build a `FileAttr` whose reported `ino` is the *argument*
`ino` (the virtual node id), with the `u16`/`u32` casts of the metadata
fields made explicit. -/
def statAttr (stat : String → Option HostMeta) (ino : Nat) (name : String) :
    Option FileAttr :=
  (stat name).map fun m =>
    let kind : FType :=
      if m.isDir then .directory
      else if m.isFile then .regularFile
      else if m.isSymlink then .symlink
      else .namedPipe
    { ino := ino, size := m.size, blocks := m.blocks,
      atime := i64AsU64 m.atime, mtime := i64AsU64 m.mtime,
      ctime := i64AsU64 m.ctime, crtime := 0, kind := kind,
      perm := m.mode % 2 ^ 16, nlink := m.nlink % 2 ^ 32, uid := m.uid,
      gid := m.gid, rdev := m.rdev % 2 ^ 32, blksize := m.blksize % 2 ^ 32,
      flags := 0 }

/-! ## Open-file registry -/

/-- One open host file held by the registry, together with oracles for the
fallible host operations `read` performs on it: `size` is what a successful
`metadata().len()` reports, `byteAt i` the file's byte at position `i`, and
the three flags inject host failures of `metadata`, `seek` and `read_exact`
respectively. -/
structure HostFile where
  size : Nat
  byteAt : Nat → Nat
  metaFail : Bool
  seekFail : Bool
  readFail : Bool

/-- Rust `Inner` (src/main.rs lines 62-72): the `BTreeMap<u64, File>` of live
handles (as an association list) and the monotonically increasing counter. -/
structure Inner where
  fileHandles : List (Nat × HostFile)
  counter : Nat

/-- Rust `BTreeMap::remove(&fh)`: drop the (unique-keyed) entry with key `fh`. -/
def eraseKey (fh : Nat) : List (Nat × HostFile) → List (Nat × HostFile)
  | [] => []
  | (k, v) :: rest => if k = fh then rest else (k, v) :: eraseKey fh rest

/-- Rust `file.metadata().await` on an open handle: its length, or a host failure. -/
def HostFile.meta (f : HostFile) : Option Nat :=
  if f.metaFail then none else some f.size

/-- Rust `file.read_exact(&mut buf).await` after `seek(Start(off))` for a buffer
of `n` bytes: a zero-length read always succeeds without touching the host;
otherwise it fails if the host fails or fewer than `n` bytes remain, and
returns exactly the `n` bytes starting at `off` on success. -/
def HostFile.readExact (f : HostFile) (off n : Nat) : Option (List Nat) :=
  if n = 0 then some []
  else if f.readFail then none
  else if off + n ≤ f.size then some ((List.range n).map fun i => f.byteAt (off + i))
  else none

/-! ## Protocol handlers (impl Filesystem for MappingFS, src/main.rs) -/

/-- Reply of an attribute-bearing operation: an attribute record or an errno. -/
inductive AttrReply where
  | attr (a : FileAttr)
  | error (e : Nat)
deriving DecidableEq

/-- One `reply.add` record of `readdir`: `(ino, cookie, kind, name)`. -/
structure DirEntry where
  ino : Nat
  cookie : Nat
  kind : FType
  name : String
deriving DecidableEq

/-- Rust `MappingFS::lookup` (src/main.rs lines 148-186).  The `OsStr` argument is
modelled by the result of `name.to_str()`: `some s` when the kernel-supplied
byte string is valid UTF-8, `none` otherwise.  A leaf defers to the
asynchronous stat (`statAttr`); a folder replies synchronously with
`make_folder_attr`; the 0-second TTL and generation 0 of `reply.entry` are
constants and elided. -/
def fsLookup (fs : INodeTable) (stat : String → Option HostMeta)
    (parent : Nat) (name : Option String) : AttrReply :=
  match name with
  | none => .error ENOENT
  | some filename =>
    match fs.lookup parent filename with
    | some inode =>
      match inode with
      | .file _ _ _ target =>
        match statAttr stat inode.getIno target with
        | some attr => .attr attr
        | none => .error Eio
      | .folder _ _ _ _ => .attr (makeFolderAttr inode)
    | none => .error ENOENT

/-- Rust `MappingFS::getattr` — the `Filesystem` impl (src/main.rs lines 188-213).
A leaf defers to the asynchronous stat with the virtual `ino`; a folder
replies with the constant `HELLO_DIR_ATTR`. -/
def fsGetattr (fs : INodeTable) (stat : String → Option HostMeta)
    (ino : Nat) : AttrReply :=
  match fs.getByIno ino with
  | none => .error ENOENT
  | some inode =>
    match inode with
    | .file _ _ _ target =>
      match statAttr stat ino target with
      | some attr => .attr attr
      | none => .error Eio
    | .folder _ _ _ _ => .attr HELLO_DIR_ATTR

/-- Rust `MappingFS::open` (src/main.rs lines 215-244).  `hostOpen` is the host
`File::open` oracle (`none` = host I/O failure).  Returns the reply and the
registry state after the call; every error path leaves the registry
untouched. -/
def fsOpen (fs : INodeTable) (hostOpen : String → Option HostFile)
    (inner : Inner) (ino : Nat) : Except Nat Nat × Inner :=
  match fs.getByIno ino with
  | none => (.error ENOENT, inner)
  | some inode =>
    match inode with
    | .folder _ _ _ _ => (.error ENFILE, inner)
    | .file _ _ _ target =>
      match hostOpen target with
      | none => (.error Eio, inner)
      | some f =>
        let fh := inner.counter + 1
        (.ok fh, { fileHandles := (fh, f) :: inner.fileHandles, counter := fh })

/-- Rust `MappingFS::read` (src/main.rs lines 246-297).  `offset` is the
(non-negative) kernel offset; `size` is the `u32` request size.  The code
computes `read_size = min(size, file_size.saturating_sub(offset) as u32)` —
the saturating subtraction is `Nat` subtraction and the `as u32` cast is an
explicit `% 2 ^ 32` — then seeks and `read_exact`s that many bytes. -/
def fsRead (inner : Inner) (fh offset size : Nat) : Except Nat (List Nat) :=
  match List.lookup fh inner.fileHandles with
  | none => .error EBADF
  | some f =>
    match f.meta with
    | none => .error Eio
    | some fileSize =>
      let readSize := min size ((fileSize - offset) % 2 ^ 32)
      if f.seekFail then .error Eio
      else
        match f.readExact offset readSize with
        | none => .error Eio
        | some buf => .ok buf

/-- Rust `MappingFS::release` (src/main.rs lines 299-312): `remove(&fh)` from the
registry; `ENOENT` if it was absent (registry unchanged), success (and the
shrunken registry) otherwise. -/
def fsRelease (inner : Inner) (fh : Nat) : Except Nat Unit × Inner :=
  match List.lookup fh inner.fileHandles with
  | none => (.error ENOENT, inner)
  | some _ => (.ok (), { inner with fileHandles := eraseKey fh inner.fileHandles })

/-- The `FileType` passed to `reply.add` for an entry node
(src/main.rs lines 356-365). -/
def kindOf (t : INode) : FType :=
  match t with
  | .file _ _ _ _ => .regularFile
  | .folder _ _ _ _ => .directory

/-- Rust `MappingFS::readdir` (src/main.rs lines 314-373).  Builds the file list:
a `"."` self-entry, a `".."` entry whenever `get_by_ino(parent)` resolves,
then `list_current()`; then `enumerate().skip(offset)` and one `reply.add`
per remaining entry with cookie `i + 1`.  The reply sink is modelled as
unbounded (`reply.add` never reports a full buffer), so no early stop
occurs.  Note the handler never checks that the node is a folder. -/
def fsReaddir (fs : INodeTable) (ino offset : Nat) : Except Nat (List DirEntry) :=
  match fs.getByIno ino with
  | none => .error ENOENT
  | some curr =>
    let files : List INode :=
      (INode.folder curr.getIno curr.getParent "." []) ::
      ((match fs.getByIno curr.getParent with
        | some par => [INode.folder par.getIno par.getParent ".." []]
        | none => []) ++ curr.listCurrent)
    .ok ((files.enum.drop offset).map fun ie =>
      { ino := ie.2.getIno, cookie := ie.1 + 1, kind := kindOf ie.2,
        name := ie.2.getName })

/-! ## The Mapping Description schema (src/mapping.rs vs src/inode.rs) -/

/-- Rust `Path` exactly as declared in src/mapping.rs lines 9-14 (the serde
`tag = "type"` mapping-description node): `File { path }` or
`Folder { paths: HashMap<String, Path> }`.  Neither variant declares a
`name` field. -/
inductive MappingPath where
  | file (path : String)
  | folder (paths : List (String × MappingPath))

/-- Modelled from the spec: the mapping-description node shape that the
documented schema (spec §6: `File` has fields `name`, `path`; `Folder` has
fields `name`, `paths`) and the `From<Path> for INode` impl in
src/inode.rs lines 85-108 both require — each variant carries a `name`
field.  This shape is missing from src/mapping.rs, whose declared `Path`
(`MappingPath` above) has no `name` fields, so the `From` impl does not
type-check against it. -/
inductive NamedPath where
  | file (name path : String)
  | folder (name : String) (paths : List (String × NamedPath))

mutual

/-- Rust `From<Path> for INode` (src/inode.rs lines 85-108) over the name-carrying
node shape: a `File` becomes a leaf `INode` with `ino = 0`, `parent = 0`,
the node's `name` and `target = path`; a `Folder` keeps each child under its
map key.  (In Rust the children are re-inserted from a `HashMap` into a
`BTreeMap`, i.e. end up in key order; the association list is taken to be
in key order already.) -/
def NamedPath.toINode : NamedPath → INode
  | .file name path => .file 0 0 name path
  | .folder name paths => .folder 0 0 name (toINodeL paths)

/-- The `From<Path> for INode` conversion over an entry list. -/
def toINodeL : List (String × NamedPath) → List (String × INode)
  | [] => []
  | (k, p) :: rest => (k, p.toINode) :: toINodeL rest

end

/-! ## Helper lemmas -/

theorem lookup_eq_none_of_not_mem_keys {α β : Type} [BEq α] [LawfulBEq α]
    (a : α) (l : List (α × β)) (h : a ∉ l.map Prod.fst) :
    List.lookup a l = none := by
  induction l with
  | nil => rfl
  | cons kv rest ih =>
    obtain ⟨k, v⟩ := kv
    simp only [List.map_cons, List.mem_cons, not_or] at h
    have hb : (a == k) = false := by simpa using h.1
    simp only [List.lookup_cons, hb]
    exact ih h.2

theorem lookup_eraseKey_self (fh : Nat) (l : List (Nat × HostFile))
    (hnd : (l.map Prod.fst).Nodup) :
    List.lookup fh (eraseKey fh l) = none := by
  induction l with
  | nil => rfl
  | cons kv rest ih =>
    obtain ⟨k, v⟩ := kv
    simp only [List.map_cons, List.nodup_cons] at hnd
    by_cases hk : k = fh
    · simp only [eraseKey, if_pos hk]
      exact lookup_eq_none_of_not_mem_keys fh rest (hk ▸ hnd.1)
    · have hb : (fh == k) = false := by simpa using fun h => hk h.symm
      simp only [eraseKey, if_neg hk, List.lookup_cons, hb]
      exact ih hnd.2

theorem lookup_eraseKey_ne (fh g : Nat) (l : List (Nat × HostFile))
    (hg : g ≠ fh) :
    List.lookup g (eraseKey fh l) = List.lookup g l := by
  induction l with
  | nil => rfl
  | cons kv rest ih =>
    obtain ⟨k, v⟩ := kv
    by_cases hk : k = fh
    · have hb : (g == k) = false := by simpa using hk ▸ hg
      simp only [eraseKey, if_pos hk, List.lookup_cons, hb]
    · simp only [eraseKey, if_neg hk, List.lookup_cons, ih]

/-- Names listed by a paginated `readdir` map: dropping the enumeration
offset commutes with projecting any per-entry field. -/
theorem enum_drop_map_snd_proj {α β : Type} (f : α → β) (L : List α) (k : Nat) :
    ((L.enum.drop k).map fun ie => f ie.2) = (L.map f).drop k := by
  have h2 : ∀ (M : List (Nat × α)), (M.map fun ie => f ie.2) = (M.map Prod.snd).map f := by
    intro M; rw [List.map_map]; rfl
  rw [h2, List.map_drop, List.enum_map_snd, List.map_drop]

/-- Cookies of a paginated `readdir`: entry `i` of the enumeration gets
cookie `i + 1`, so the cookies from offset `k` are `k+1, k+2, ...`. -/
theorem enumFrom_map_cookie {α : Type} (L : List α) (n : Nat) :
    ((L.enumFrom n).map fun ie => ie.1 + 1) = List.range' (n + 1) L.length := by
  induction L generalizing n with
  | nil => rfl
  | cons a rest ih =>
    simp only [List.enumFrom, List.map_cons, List.length_cons]
    rw [ih (n + 1), List.range'_succ]

/-! ## Input invariants of the Mapping Description tree

The spec's schema (§6) makes `paths` a "mapping from child name to child
node" with unique keys (§3): in the built `INode` tree every folder entry's
key equals the child's `name` field, and keys within one folder are
distinct.  These two input invariants are stated as recursive predicates
over the tree. -/

mutual

/-- Every folder entry's key equals the child node's `name` field,
recursively. -/
def NameConsistent : INode → Prop
  | .file _ _ _ _ => True
  | .folder _ _ _ es => NameConsistentL es

def NameConsistentL : List (String × INode) → Prop
  | [] => True
  | (k, c) :: rest => k = c.getName ∧ NameConsistent c ∧ NameConsistentL rest

end

mutual

/-- Every folder's entry keys are pairwise distinct (the `BTreeMap`
invariant), recursively. -/
def UniqueKeys : INode → Prop
  | .file _ _ _ _ => True
  | .folder _ _ _ es => (es.map Prod.fst).Nodup ∧ UniqueKeysL es

def UniqueKeysL : List (String × INode) → Prop
  | [] => True
  | (_, c) :: rest => UniqueKeys c ∧ UniqueKeysL rest

end

/-- Node `n` has its enclosing folder inside the listing `L`: some folder in `L`
is recorded as `n`'s parent and holds `n` among its entries under `n`'s own
name. -/
def childOk (L : List INode) (n : INode) : Prop :=
  ∃ f, f ∈ L ∧ f.isFolder = true ∧ n.getParent = f.getIno ∧
    List.lookup n.getName f.entriesOf = some n

mutual

/-- Mutual structural induction over `INode` and its nested entry lists. -/
def INode.mutInd (motive : INode → Prop)
    (motiveL : List (String × INode) → Prop)
    (hfile : ∀ i p n t, motive (.file i p n t))
    (hfolder : ∀ i p n es, motiveL es → motive (.folder i p n es))
    (hnil : motiveL [])
    (hcons : ∀ k c rest, motive c → motiveL rest → motiveL ((k, c) :: rest)) :
    ∀ t, motive t
  | .file i p n t => hfile i p n t
  | .folder i p n es =>
      hfolder i p n es (INode.mutIndL motive motiveL hfile hfolder hnil hcons es)

/-- Companion induction over entry lists. -/
def INode.mutIndL (motive : INode → Prop)
    (motiveL : List (String × INode) → Prop)
    (hfile : ∀ i p n t, motive (.file i p n t))
    (hfolder : ∀ i p n es, motiveL es → motive (.folder i p n es))
    (hnil : motiveL [])
    (hcons : ∀ k c rest, motive c → motiveL rest → motiveL ((k, c) :: rest)) :
    ∀ es, motiveL es
  | [] => hnil
  | (k, c) :: rest =>
      hcons k c rest (INode.mutInd motive motiveL hfile hfolder hnil hcons c)
        (INode.mutIndL motive motiveL hfile hfolder hnil hcons rest)

end

/-- A node's `list_recursively` always starts with the node itself. -/
theorem listRec_head (t : INode) : ∃ r, t.listRec = t :: r := by
  cases t with
  | file i p n tg => exact ⟨[], rfl⟩
  | folder i p n es => exact ⟨listRecL es, rfl⟩

/-- Both construction passes composed, as `INodeTable::from` applies them:
assign pre-order ids from `c`, then set parents below `p`. -/
def buildNode (c p : Nat) (t : INode) : INode :=
  (assignInos c t).1.autoSetParent p

/-- The composed passes over an entry list: ids from `c`, parents `pi`. -/
def buildList (c pi : Nat) (es : List (String × INode)) : List (String × INode) :=
  autoSetParentL (assignInosL c es).1 pi

theorem buildNode_file (c p i q : Nat) (n t : String) :
    buildNode c p (.file i q n t) = .file c p n t := rfl

theorem buildNode_folder (c p i q : Nat) (nm : String)
    (es : List (String × INode)) :
    buildNode c p (.folder i q nm es) =
      .folder c p nm (buildList (c + 1) c es) := rfl

theorem buildList_nil (c pi : Nat) : buildList c pi [] = [] := rfl

theorem buildList_cons (c pi : Nat) (k : String) (t : INode)
    (rest : List (String × INode)) :
    buildList c pi ((k, t) :: rest) =
      (k, buildNode c pi t) :: buildList (assignInos c t).2 pi rest := rfl

/-- The central construction invariant, proved by mutual induction over the
tree: after both passes of `INodeTable::from` (ids pre-order from `c`,
parents below `p`), the built subtree reports id `c`, parent `p`, its
original name; the id counter advances by the subtree's node count; the
pre-order listing carries the contiguous ids `c, c+1, ...`; and every
strictly-internal node of the listing has its enclosing folder inside the
listing, holding it among its entries under its own name. -/
theorem build_spec : ∀ t : INode, ∀ c p : Nat,
    NameConsistent t → UniqueKeys t →
    (buildNode c p t).getIno = c ∧
    (buildNode c p t).getParent = p ∧
    (buildNode c p t).getName = t.getName ∧
    (assignInos c t).2 = c + (buildNode c p t).listRec.length ∧
    ((buildNode c p t).listRec.map INode.getIno =
      List.range' c (buildNode c p t).listRec.length) ∧
    (∀ n ∈ (buildNode c p t).listRec.drop 1,
      childOk (buildNode c p t).listRec n) := by
  refine INode.mutInd _
    (fun es => ∀ c pi : Nat,
      NameConsistentL es → UniqueKeysL es → (es.map Prod.fst).Nodup →
      (assignInosL c es).2 = c + (listRecL (buildList c pi es)).length ∧
      ((listRecL (buildList c pi es)).map INode.getIno =
        List.range' c (listRecL (buildList c pi es)).length) ∧
      ((buildList c pi es).map Prod.fst = es.map Prod.fst) ∧
      (∀ kv ∈ buildList c pi es, kv.2.getParent = pi ∧ kv.1 = kv.2.getName) ∧
      (∀ kv ∈ buildList c pi es,
        List.lookup kv.1 (buildList c pi es) = some kv.2) ∧
      (∀ n ∈ listRecL (buildList c pi es),
        (∃ k, (k, n) ∈ buildList c pi es) ∨
          childOk (listRecL (buildList c pi es)) n))
    ?_ ?_ ?_ ?_
  · -- leaf nodes
    intro i q nm tg c p _ _
    rw [buildNode_file]
    refine ⟨rfl, rfl, rfl, rfl, ?_, ?_⟩
    · simp [INode.listRec, INode.getIno, List.range'_one]
    · intro n hn
      simp [INode.listRec] at hn
  · -- folder nodes
    intro i q nm es ih c p hnc huk
    have hncL : NameConsistentL es := hnc
    have hnd : (es.map Prod.fst).Nodup := huk.1
    have hukL : UniqueKeysL es := huk.2
    obtain ⟨ih1, ih2, ih3, ih4, ih5, ih6⟩ := ih (c + 1) c hncL hukL hnd
    rw [buildNode_folder]
    have hlr : (INode.folder c p nm (buildList (c + 1) c es)).listRec =
        (INode.folder c p nm (buildList (c + 1) c es)) ::
          listRecL (buildList (c + 1) c es) := rfl
    rw [hlr]
    refine ⟨rfl, rfl, rfl, ?_, ?_, ?_⟩
    · show (assignInosL (c + 1) es).2 = _
      simp only [List.length_cons]
      omega
    · simp only [List.map_cons, List.length_cons]
      rw [List.range'_succ, ih2]
      rfl
    · intro n hn
      simp only [List.drop_succ_cons, List.drop_zero] at hn
      rcases ih6 n hn with ⟨k, hk⟩ | ⟨f, hf1, hf2, hf3, hf4⟩
      · refine ⟨INode.folder c p nm (buildList (c + 1) c es),
          List.mem_cons_self _ _, rfl, (ih4 (k, n) hk).1, ?_⟩
        have h5 := ih5 (k, n) hk
        have hkn := (ih4 (k, n) hk).2
        rw [← hkn]
        exact h5
      · exact ⟨f, List.mem_cons_of_mem _ hf1, hf2, hf3, hf4⟩
  · -- empty entry lists
    intro c pi _ _ _
    rw [buildList_nil]
    refine ⟨rfl, rfl, rfl, ?_, ?_, ?_⟩
    · intro kv hkv
      exact absurd hkv (List.not_mem_nil kv)
    · intro kv hkv
      exact absurd hkv (List.not_mem_nil kv)
    · intro n hn
      exact absurd hn (List.not_mem_nil n)
  · -- entry-list cons
    intro k c0 rest iht ihrest c pi hnc huk hnd
    obtain ⟨hk, hnc0, hncR⟩ := hnc
    obtain ⟨huk0, hukR⟩ := huk
    rw [List.map_cons, List.nodup_cons] at hnd
    obtain ⟨hknotin, hndR⟩ := hnd
    obtain ⟨t1, t2, t3, t4, t5, t6⟩ := iht c pi hnc0 huk0
    obtain ⟨r1, r2, r3, r4, r5, r6⟩ :=
      ihrest (assignInos c c0).2 pi hncR hukR hndR
    rw [buildList_cons]
    have hlrl : listRecL ((k, buildNode c pi c0) ::
        buildList (assignInos c c0).2 pi rest) =
        (buildNode c pi c0).listRec ++
          listRecL (buildList (assignInos c c0).2 pi rest) := rfl
    rw [hlrl]
    refine ⟨?_, ?_, ?_, ?_, ?_, ?_⟩
    · show (assignInosL (assignInos c c0).2 rest).2 = _
      rw [List.length_append]
      omega
    · rw [List.map_append, List.length_append, t5, r2, t4,
        Nat.add_comm ((buildNode c pi c0).listRec.length)]
      exact List.range'_append_1 _ _ _
    · simp only [List.map_cons, r3]
    · intro kv hkv
      rcases List.mem_cons.mp hkv with heq | hmem
      · subst heq
        refine ⟨t2, ?_⟩
        rw [t3]
        exact hk
      · exact r4 kv hmem
    · intro kv hkv
      rcases List.mem_cons.mp hkv with heq | hmem
      · subst heq
        have hbeq : (k == k) = true := beq_self_eq_true k
        simp [List.lookup_cons, hbeq]
      · have hne : kv.1 ≠ k := by
          intro hcontra
          apply hknotin
          rw [← r3, ← hcontra]
          exact List.mem_map.mpr ⟨kv, hmem, rfl⟩
        have hb : (kv.1 == k) = false := by simpa using hne
        simp only [List.lookup_cons, hb]
        exact r5 kv hmem
    · intro n hn
      rcases List.mem_append.mp hn with h1 | h2
      · obtain ⟨r, hr⟩ := listRec_head (buildNode c pi c0)
        rw [hr] at h1
        rcases List.mem_cons.mp h1 with heq | hmem
        · subst heq
          exact Or.inl ⟨k, List.mem_cons_self _ _⟩
        · have hdrop : n ∈ (buildNode c pi c0).listRec.drop 1 := by
            rw [hr]
            simpa using hmem
          obtain ⟨f, hf1, hf2, hf3, hf4⟩ := t6 n hdrop
          exact Or.inr ⟨f, List.mem_append_left _ hf1, hf2, hf3, hf4⟩
      · rcases r6 n h2 with ⟨k', hk'⟩ | ⟨f, hf1, hf2, hf3, hf4⟩
        · exact Or.inl ⟨k', List.mem_cons_of_mem _ hk'⟩
        · exact Or.inr ⟨f, List.mem_append_right _ hf1, hf2, hf3, hf4⟩

/-! ## Concrete fixtures -/

/-- A two-node mapping: the root folder containing one subfolder `etc`.
After construction the root has id 1 and `etc` id 2. -/
def treeTwoFolders : INode := .folder 0 0 "/" [("etc", .folder 0 0 "etc" [])]

def fsTwoFolders : INodeTable := .fromRoot treeTwoFolders

/-- The spec §8 scenario mapping: root folder with one leaf `a.txt`
redirecting to `/etc/hostname`.  After construction the root has id 1 and
the leaf id 2. -/
def treeOneLeaf : INode := .folder 0 0 "/" [("a.txt", .file 0 0 "a.txt" "/etc/hostname")]

def fsOneLeaf : INodeTable := .fromRoot treeOneLeaf

/-- An empty open-file registry. -/
def innerEmpty : Inner := { fileHandles := [], counter := 0 }

/-! ## Claim theorems -/

/-- C1.  The claim says every attribute-bearing reply reports the virtual
node's own id — in particular `getattr(id)` on any Folder node replies with
attributes whose identity is that node's id.  The code violates this:
`Filesystem::getattr` on a folder (src/main.rs line 210) replies with the
constant `HELLO_DIR_ATTR`, whose `ino` is hardcoded to 1.  On the two-folder
tree, node 2 is a folder, yet `getattr(2)` reports identity 1. -/
theorem getattr_folder_reports_constant_ino :
    (fsTwoFolders.getByIno 2).map INode.getIno = some 2 ∧
    (fsTwoFolders.getByIno 2).map INode.isFolder = some true ∧
    fsGetattr fsTwoFolders (fun _ => none) 2 = .attr HELLO_DIR_ATTR ∧
    HELLO_DIR_ATTR.ino = 1 ∧ (1 : Nat) ≠ 2 :=
  ⟨rfl, rfl, rfl, rfl, by decide⟩

/-- C3: `get_by_ino` is total over all numeric u64 ids and returns `Some`
exactly on `1..=N` where `N` is the table length: id 0 wraps
(`ino as usize - 1` in release u64 arithmetic) to index `2^64 - 1`, out of
range of any table that fits in memory, and every id above `N` indexes past
the end. -/
theorem get_by_ino_total_range (fs : INodeTable) (ino : Nat)
    (h1 : ino < 2 ^ 64) (h2 : fs.table.length < 2 ^ 64) :
    (fs.getByIno ino).isSome = true ↔ 1 ≤ ino ∧ ino ≤ fs.table.length := by
  unfold INodeTable.getByIno wrapIdx
  rcases Nat.eq_zero_or_pos ino with h0 | hpos
  · subst h0
    have hidx : (0 + (2 ^ 64 - 1)) % 2 ^ 64 = 2 ^ 64 - 1 := by
      rw [Nat.zero_add]; exact Nat.mod_eq_of_lt (by omega)
    rw [hidx]
    have hnone : fs.table.get? (2 ^ 64 - 1) = none := List.get?_eq_none.mpr (by omega)
    simp [hnone]
    omega
  · have hidx : (ino + (2 ^ 64 - 1)) % 2 ^ 64 = ino - 1 := by
      have he : ino + (2 ^ 64 - 1) = (ino - 1) + 2 ^ 64 := by omega
      rw [he, Nat.add_mod_right, Nat.mod_eq_of_lt (by omega)]
    rw [hidx, List.get?_eq_getElem?]
    rcases Nat.lt_or_ge (ino - 1) fs.table.length with hlt | hge
    · rw [List.getElem?_eq_getElem hlt]
      simp only [Option.isSome_some, true_iff]
      omega
    · rw [List.getElem?_eq_none hge]
      simp only [Option.isSome_none, Bool.false_eq_true, false_iff]
      omega

/-- Witness for C3 at concrete inputs: on the two-node table, id 0 resolves
to nothing and ids 1..2 resolve. -/
theorem get_by_ino_total_range_witness :
    ((fsTwoFolders.getByIno 0).isSome = true ↔ 1 ≤ 0 ∧ 0 ≤ fsTwoFolders.table.length) ∧
    ((fsTwoFolders.getByIno 2).isSome = true ↔ 1 ≤ 2 ∧ 2 ≤ fsTwoFolders.table.length) :=
  ⟨get_by_ino_total_range fsTwoFolders 0 (by norm_num) (by decide),
   get_by_ino_total_range fsTwoFolders 2 (by norm_num) (by decide)⟩

/-- C4 counterexample.  The claim says `readdir` on a Leaf fails with the
"not a directory" error and adds no entries.  The handler
(src/main.rs lines 314-373) never checks the node kind: on the one-leaf
tree, `readdir` of leaf id 2 succeeds, listing a `"."` self-entry and a
`".."` parent entry. -/
theorem readdir_leaf_not_an_error :
    fsReaddir fsOneLeaf 2 0 =
      .ok [{ ino := 2, cookie := 1, kind := .directory, name := "." },
           { ino := 1, cookie := 2, kind := .directory, name := ".." }] ∧
    fsReaddir fsOneLeaf 2 0 ≠ .error ENOTDIR :=
  ⟨rfl, by intro h; exact Except.noConfusion (rfl.trans h)⟩

/-- C4 amended: for every id that resolves to a Leaf node, `readdir` does
not fail — it replies success, listing (from the pagination offset) only the
`"."` self-entry and, when the leaf's parent id resolves, a `".."` entry,
and no other entries (`list_current` of a leaf is empty). -/
theorem readdir_leaf_replies_ok (fs : INodeTable) (ino off : Nat)
    (i p : Nat) (n t : String)
    (h : fs.getByIno ino = some (.file i p n t)) :
    ∃ l, fsReaddir fs ino off = .ok l ∧
      l.map DirEntry.name =
        ("." :: (match fs.getByIno p with
                 | some _ => [".."]
                 | none => [])).drop off := by
  unfold fsReaddir
  rw [h]
  refine ⟨_, rfl, ?_⟩
  rw [List.map_map]
  have hn := enum_drop_map_snd_proj INode.getName
      ((INode.folder (INode.file i p n t).getIno (INode.file i p n t).getParent "." []) ::
       ((match fs.getByIno (INode.file i p n t).getParent with
         | some par => [INode.folder par.getIno par.getParent ".." []]
         | none => []) ++ (INode.file i p n t).listCurrent)) off
  refine Eq.trans hn ?_
  show (INode.getName _ :: (List.map INode.getName _)).drop off = _
  rcases hp : fs.getByIno p with _ | par
  · simp [INode.getParent, hp, INode.listCurrent, INode.getName]
  · simp [INode.getParent, hp, INode.listCurrent, INode.getName]

/-- Witness for C4's amended theorem on the one-leaf tree at offset 0. -/
theorem readdir_leaf_replies_ok_witness :
    ∃ l, fsReaddir fsOneLeaf 2 0 = .ok l ∧
      l.map DirEntry.name =
        ("." :: (match fsOneLeaf.getByIno 1 with
                 | some _ => [".."]
                 | none => [])).drop 0 :=
  readdir_leaf_replies_ok fsOneLeaf 2 0 2 1 "a.txt" "/etc/hostname" rfl

/-- C5 counterexample.  The claim says `open` on a Folder fails with the
"is a directory" failure kind.  The code (src/main.rs line 223) replies
`ENFILE` ("file table overflow", 23), which is not `EISDIR` (21): on the
two-folder tree, opening folder id 2 yields `ENFILE`. -/
theorem open_folder_replies_enfile :
    (fsOpen fsTwoFolders (fun _ => none) innerEmpty 2).1 = .error ENFILE ∧
    ENFILE ≠ EISDIR :=
  ⟨rfl, by decide⟩

/-- C5 amended: for every id that resolves to a Folder node, `open` fails
with `ENFILE` (not an is-a-directory error), registers no handle, and
leaves the Open-File Registry unchanged. -/
theorem open_folder_enfile_registry_unchanged (fs : INodeTable)
    (hostOpen : String → Option HostFile) (inner : Inner) (ino : Nat)
    (i p : Nat) (n : String) (es : List (String × INode))
    (h : fs.getByIno ino = some (.folder i p n es)) :
    fsOpen fs hostOpen inner ino = (.error ENFILE, inner) := by
  unfold fsOpen
  rw [h]

/-- Witness for C5's amended theorem: opening folder id 2 on the two-folder
tree with an empty registry. -/
theorem open_folder_enfile_registry_unchanged_witness :
    fsOpen fsTwoFolders (fun _ => none) innerEmpty 2 = (.error ENFILE, innerEmpty) :=
  open_folder_enfile_registry_unchanged fsTwoFolders (fun _ => none) innerEmpty 2
    2 1 "etc" [] rfl

/-- C7: `release` removes the present registry entry (leaving all other
handles untouched) and replies success; an absent handle — never issued or
already released — is rejected with `ENOENT`, so a second release of the
same handle always fails.  The `Nodup` hypothesis is the `BTreeMap` key
invariant of the registry. -/
theorem release_removes_and_rejects_absent (inner : Inner) (fh : Nat)
    (hnd : (inner.fileHandles.map Prod.fst).Nodup) :
    (List.lookup fh inner.fileHandles = none →
      fsRelease inner fh = (.error ENOENT, inner)) ∧
    (∀ f, List.lookup fh inner.fileHandles = some f →
      (fsRelease inner fh).1 = .ok () ∧
      List.lookup fh (fsRelease inner fh).2.fileHandles = none ∧
      (∀ g, g ≠ fh →
        List.lookup g (fsRelease inner fh).2.fileHandles =
          List.lookup g inner.fileHandles) ∧
      fsRelease (fsRelease inner fh).2 fh = (.error ENOENT, (fsRelease inner fh).2)) := by
  constructor
  · intro h
    unfold fsRelease
    rw [h]
  · intro f hf
    have hrel : fsRelease inner fh =
        (.ok (), { inner with fileHandles := eraseKey fh inner.fileHandles }) := by
      unfold fsRelease
      rw [hf]
    have herased : List.lookup fh (eraseKey fh inner.fileHandles) = none :=
      lookup_eraseKey_self fh inner.fileHandles hnd
    refine ⟨by rw [hrel], by rw [hrel]; exact herased,
            fun g hg => by rw [hrel]; exact lookup_eraseKey_ne fh g inner.fileHandles hg,
            ?_⟩
    rw [hrel]
    unfold fsRelease
    rw [herased]

/-- A healthy 5-byte host file whose byte at position `i` is `i + 10`. -/
def innerOneFile : HostFile :=
  { size := 5, byteAt := fun i => i + 10,
    metaFail := false, seekFail := false, readFail := false }

/-- A one-handle registry fixture: handle 1 → a 5-byte healthy host file. -/
def innerOne : Inner :=
  { fileHandles := [(1, innerOneFile)], counter := 1 }

/-- Witness for C7: releasing handle 1 from the one-handle registry
succeeds, empties it, and a second release fails. -/
theorem release_removes_and_rejects_absent_witness :
    (List.lookup 1 innerOne.fileHandles = none →
      fsRelease innerOne 1 = (.error ENOENT, innerOne)) ∧
    (∀ f, List.lookup 1 innerOne.fileHandles = some f →
      (fsRelease innerOne 1).1 = .ok () ∧
      List.lookup 1 (fsRelease innerOne 1).2.fileHandles = none ∧
      (∀ g, g ≠ 1 →
        List.lookup g (fsRelease innerOne 1).2.fileHandles =
          List.lookup g innerOne.fileHandles) ∧
      fsRelease (fsRelease innerOne 1).2 1 = (.error ENOENT, (fsRelease innerOne 1).2)) :=
  release_removes_and_rejects_absent innerOne 1 (by simp [innerOne])

/-- C6 amended: `read(handle_id, offset, size)` replies `EBADF` for an
unregistered handle and `Eio` for any host metadata, seek or read failure —
the read-failure clause (src/main.rs lines 289-293) requires a non-empty
read buffer, since `read_exact` on the zero-length buffer the handler
allocates when no bytes remain performs no host read at all; when host I/O
succeeds it replies with exactly
`min(size, (file_size - offset) truncated to u32)` bytes starting at
`offset` — the `as u32` cast in
`min(size, file_size.saturating_sub(offset) as u32)`
(src/main.rs line 280) truncates the available-byte count modulo `2^32`,
which coincides with the claimed `min(size, file_size - offset)` exactly
when `file_size - offset < 2^32`. -/
theorem read_returns_truncated_min (inner : Inner) (fh offset size : Nat) :
    (List.lookup fh inner.fileHandles = none →
      fsRead inner fh offset size = .error EBADF) ∧
    (∀ f, List.lookup fh inner.fileHandles = some f →
      f.metaFail = true → fsRead inner fh offset size = .error Eio) ∧
    (∀ f, List.lookup fh inner.fileHandles = some f →
      f.metaFail = false → f.seekFail = true →
      fsRead inner fh offset size = .error Eio) ∧
    (∀ f, List.lookup fh inner.fileHandles = some f →
      f.metaFail = false → f.seekFail = false → f.readFail = true →
      0 < min size ((f.size - offset) % 2 ^ 32) →
      fsRead inner fh offset size = .error Eio) ∧
    (∀ f, List.lookup fh inner.fileHandles = some f →
      f.metaFail = false → f.seekFail = false → f.readFail = false →
      fsRead inner fh offset size =
        .ok ((List.range (min size ((f.size - offset) % 2 ^ 32))).map
          fun i => f.byteAt (offset + i))) := by
  refine ⟨?_, ?_, ?_, ?_, ?_⟩
  · intro h
    unfold fsRead
    rw [h]
  · intro f hf hm
    unfold fsRead
    rw [hf]
    simp [HostFile.meta, hm]
  · intro f hf hm hs
    unfold fsRead
    rw [hf]
    simp [HostFile.meta, hm, hs]
  · intro f hf hm hs hr hpos
    unfold fsRead
    rw [hf]
    simp only [HostFile.meta, hm, Bool.false_eq_true, if_false, hs]
    unfold HostFile.readExact
    rw [if_neg (by omega), hr]
    simp
  · intro f hf hm hs hr
    unfold fsRead
    rw [hf]
    simp only [HostFile.meta, hm, Bool.false_eq_true, if_false, hs]
    unfold HostFile.readExact
    by_cases hz : min size ((f.size - offset) % 2 ^ 32) = 0
    · rw [if_pos hz, hz]
      rfl
    · have h1 : (f.size - offset) % 2 ^ 32 ≤ f.size - offset := Nat.mod_le _ _
      have h2 : min size ((f.size - offset) % 2 ^ 32) ≤ (f.size - offset) % 2 ^ 32 :=
        Nat.min_le_right _ _
      rw [if_neg hz, hr]
      simp only [Bool.false_eq_true, if_false]
      rw [if_pos (by omega)]

/-- A 5-byte host file whose `read_exact` fails. -/
def readFailFile : HostFile :=
  { size := 5, byteAt := fun i => i + 10,
    metaFail := false, seekFail := false, readFail := true }

/-- A registry holding only handle 1 → the read-failing file. -/
def innerReadFail : Inner := { fileHandles := [(1, readFailFile)], counter := 1 }

/-- Witness for C6's amended theorem: reading 2 bytes at offset 1 from the
5-byte file behind handle 1 yields its bytes at positions 1 and 2, and a
3-byte read on a handle whose host read fails is reported as an I/O
failure. -/
theorem read_returns_truncated_min_witness :
    (List.lookup 1 innerOne.fileHandles = some innerOneFile ∧
      fsRead innerOne 1 1 2 =
        .ok ((List.range (min 2 ((innerOneFile.size - 1) % 2 ^ 32))).map
          fun i => innerOneFile.byteAt (1 + i))) ∧
    (List.lookup 1 innerReadFail.fileHandles = some readFailFile ∧
      fsRead innerReadFail 1 0 3 = .error Eio) :=
  ⟨⟨rfl, (read_returns_truncated_min innerOne 1 1 2).2.2.2.2 innerOneFile
      rfl rfl rfl rfl⟩,
   ⟨rfl, (read_returns_truncated_min innerReadFail 1 0 3).2.2.2.1 readFailFile
      rfl rfl rfl rfl (by decide)⟩⟩

/-- A healthy host file of exactly `2^32` bytes. -/
def bigFile : HostFile :=
  { size := 2 ^ 32, byteAt := fun _ => 7,
    metaFail := false, seekFail := false, readFail := false }

/-- A registry holding only handle 1 → the `2^32`-byte file. -/
def innerBig : Inner := { fileHandles := [(1, bigFile)], counter := 1 }

/-- C6 counterexample.  The claim says a successful read replies with
exactly `min(size, file_size - offset)` bytes.  For the registered handle 1
to a `2^32`-byte host file, `read(1, 0, 4)` replies 0 bytes — the truncated
count `(2^32 - 0) as u32` is 0 — although `min(4, 2^32 - 0) = 4`. -/
theorem read_truncation_counterexample :
    fsRead innerBig 1 0 4 = .ok [] ∧
    ¬ ∃ buf, fsRead innerBig 1 0 4 = .ok buf ∧
        buf.length = min 4 (bigFile.size - 0) := by
  refine ⟨rfl, ?_⟩
  rintro ⟨buf, hb, hl⟩
  rw [show fsRead innerBig 1 0 4 = Except.ok [] from rfl] at hb
  have hbuf : buf = [] := by
    injection hb with h1
    exact h1.symm
  rw [hbuf] at hl
  norm_num [bigFile] at hl

/-- C8.  The documented schema (spec §6) and the `From<Path> for INode`
impl (src/inode.rs lines 85-108) agree: a `File` node carries `name` and
`path` and converts to a leaf with that name and that target, a `Folder`
node carries `name` and `paths` and converts keeping every child under its
key.  The declared `Path` type in src/mapping.rs lines 9-14 however has no
`name` field on either variant (`MappingPath` here), so the conversion the
spec describes cannot even be applied to it; this theorem states the
conversion over the name-carrying shape (`NamedPath`) both require. -/
theorem schema_conversion_preserves_name_and_target :
    (∀ n p, NamedPath.toINode (.file n p) = INode.file 0 0 n p) ∧
    (∀ n ps, NamedPath.toINode (.folder n ps) = INode.folder 0 0 n (toINodeL ps) ∧
      (toINodeL ps).map Prod.fst = ps.map Prod.fst) := by
  refine ⟨fun n p => rfl, fun n ps => ⟨rfl, ?_⟩⟩
  induction ps with
  | nil => rfl
  | cons kv rest ih =>
    obtain ⟨k, c⟩ := kv
    simp only [toINodeL, List.map_cons, ih]

/-- C2: `readdir` on a folder node synthesizes, in order, the `"."`
self-entry, a `".."` entry whenever the folder's parent id resolves (i.e.
for every node except the root, whose parent is the unresolvable sentinel
0), then the children in name order; cookies are the 1-based positions
`1, 2, ...`, and a call with offset `k` returns exactly the suffix of the
full listing after its first `k` entries, so pagination that advances
`offset` by the number of entries returned reproduces the unpaginated
listing without duplication.  `hsort`/`hnc` are the `BTreeMap` key order
and the schema's key-is-child-name invariants. -/
theorem readdir_folder_listing (fs : INodeTable) (ino i p : Nat) (nm : String)
    (es : List (String × INode))
    (hres : fs.getByIno ino = some (.folder i p nm es))
    (hsort : List.Chain' (· < ·) (es.map Prod.fst))
    (hnc : ∀ kv ∈ es, kv.1 = kv.2.getName) :
    ∃ full, fsReaddir fs ino 0 = .ok full ∧
      full.map DirEntry.name =
        "." :: ((match fs.getByIno p with
                 | some _ => [".."]
                 | none => []) ++ es.map fun kv => kv.2.getName) ∧
      List.Chain' (· < ·) (es.map fun kv => kv.2.getName) ∧
      full.map DirEntry.cookie = List.range' 1 full.length ∧
      ∀ k, fsReaddir fs ino k = .ok (full.drop k) := by
  have hdef : ∀ k, fsReaddir fs ino k =
      .ok ((((INode.folder i p "." []) ::
        ((match fs.getByIno p with
          | some par => [INode.folder par.getIno par.getParent ".." []]
          | none => []) ++ es.map Prod.snd)).enum.drop k).map fun ie =>
        { ino := ie.2.getIno, cookie := ie.1 + 1, kind := kindOf ie.2,
          name := ie.2.getName }) := by
    intro k
    simp only [fsReaddir, hres, INode.getIno, INode.getParent, INode.listCurrent]
  refine ⟨(((INode.folder i p "." []) ::
      ((match fs.getByIno p with
        | some par => [INode.folder par.getIno par.getParent ".." []]
        | none => []) ++ es.map Prod.snd)).enum).map (fun ie =>
      { ino := ie.2.getIno, cookie := ie.1 + 1, kind := kindOf ie.2,
        name := ie.2.getName }), ?_, ?_, ?_, ?_, ?_⟩
  · rw [hdef 0, List.drop_zero]
  · rw [List.map_map]
    have hmap := enum_drop_map_snd_proj INode.getName
      ((INode.folder i p "." []) ::
        ((match fs.getByIno p with
          | some par => [INode.folder par.getIno par.getParent ".." []]
          | none => []) ++ es.map Prod.snd)) 0
    rw [List.drop_zero, List.drop_zero] at hmap
    refine Eq.trans hmap ?_
    rcases hpe : fs.getByIno p with _ | par
    · simp only [List.map_cons, List.map_append, List.map_map, List.nil_append]
      rfl
    · simp only [List.map_cons, List.map_append, List.map_map]
      rfl
  · have heq : (es.map fun kv => kv.2.getName) = es.map Prod.fst :=
      List.map_congr_left fun kv hkv => (hnc kv hkv).symm
    rw [heq]
    exact hsort
  · rw [List.map_map, List.length_map]
    have h1 := enumFrom_map_cookie
      ((INode.folder i p "." []) :: ((match fs.getByIno p with
        | some par => [INode.folder par.getIno par.getParent ".." []]
        | none => []) ++ es.map Prod.snd)) 0
    rw [Nat.zero_add] at h1
    rw [List.enum_length]
    exact h1
  · intro k
    rw [hdef k, List.map_drop]

/-- A three-node mapping: root containing a leaf `a.txt` and a subfolder
`sub`.  After construction: root id 1, `a.txt` id 2, `sub` id 3. -/
def treeTwoKids : INode :=
  .folder 0 0 "/" [("a.txt", .file 0 0 "a.txt" "/x"), ("sub", .folder 0 0 "sub" [])]

def fsTwoKids : INodeTable := .fromRoot treeTwoKids

/-- Witness for C2 at concrete inputs: the root folder (id 1 — no `".."`
since its parent sentinel 0 resolves to nothing) and the subfolder (id 3 —
`".."` present). -/
theorem readdir_folder_listing_witness :
    (∃ full, fsReaddir fsTwoKids 1 0 = .ok full ∧
      full.map DirEntry.name =
        "." :: ((match fsTwoKids.getByIno 0 with
                 | some _ => [".."]
                 | none => []) ++
                [("a.txt", INode.file 2 1 "a.txt" "/x"),
                 ("sub", INode.folder 3 1 "sub" [])].map fun kv => kv.2.getName) ∧
      List.Chain' (· < ·)
        ([("a.txt", INode.file 2 1 "a.txt" "/x"),
          ("sub", INode.folder 3 1 "sub" [])].map fun kv => kv.2.getName) ∧
      full.map DirEntry.cookie = List.range' 1 full.length ∧
      ∀ k, fsReaddir fsTwoKids 1 k = .ok (full.drop k)) ∧
    (∃ full, fsReaddir fsTwoKids 3 0 = .ok full ∧
      full.map DirEntry.name =
        "." :: ((match fsTwoKids.getByIno 1 with
                 | some _ => [".."]
                 | none => []) ++
                ([] : List (String × INode)).map fun kv => kv.2.getName) ∧
      List.Chain' (· < ·) (([] : List (String × INode)).map fun kv => kv.2.getName) ∧
      full.map DirEntry.cookie = List.range' 1 full.length ∧
      ∀ k, fsReaddir fsTwoKids 3 k = .ok (full.drop k)) :=
  ⟨readdir_folder_listing fsTwoKids 1 1 0 "/"
      [("a.txt", INode.file 2 1 "a.txt" "/x"), ("sub", INode.folder 3 1 "sub" [])]
      rfl
      (by simp only [List.map_cons, List.map_nil, List.chain'_cons,
            List.chain'_singleton, and_true]
          rw [String.lt_iff_toList_lt]
          decide)
      (by decide),
   readdir_folder_listing fsTwoKids 3 3 1 "sub" [] rfl (by simp) (by simp)⟩

/-- C9: after Identity Table construction from a schema-conforming mapping
tree (entry keys are the children's names and are unique per folder), every
node except the root — i.e. every node at a table position `j > 0` —
has a `parent_id` that resolves to an existing Folder node whose children
contain the original node under its own name, and the root's `parent_id`
is the sentinel 0. -/
theorem identity_parent_consistency (t0 : INode)
    (hnc : NameConsistent t0) (huk : UniqueKeys t0)
    (hlen : (INodeTable.fromRoot t0).table.length < 2 ^ 64) :
    (INodeTable.fromRoot t0).root.getParent = 0 ∧
    ∀ j, 0 < j → ∀ n, (INodeTable.fromRoot t0).table[j]? = some n →
      ∃ pi pp : Nat, ∃ pn : String, ∃ pes : List (String × INode),
        (INodeTable.fromRoot t0).getByIno n.getParent =
          some (.folder pi pp pn pes) ∧
        List.lookup n.getName pes = some n := by
  obtain ⟨b1, b2, b3, b4, b5, b6⟩ := build_spec t0 1 0 hnc huk
  have hlenL : (buildNode 1 0 t0).listRec.length < 2 ^ 64 := hlen
  refine ⟨b2, ?_⟩
  intro j hj0 n hsome
  have hsomeL : ((buildNode 1 0 t0).listRec)[j]? = some n := hsome
  obtain ⟨hjl, hEq⟩ := List.getElem?_eq_some.mp hsomeL
  -- n is strictly inside the listing
  obtain ⟨j', rfl⟩ : ∃ j', j = j' + 1 := ⟨j - 1, by omega⟩
  obtain ⟨r, hr⟩ := listRec_head (buildNode 1 0 t0)
  have hmemdrop : n ∈ (buildNode 1 0 t0).listRec.drop 1 := by
    rw [hr]
    simp only [List.drop_succ_cons, List.drop_zero]
    have hj'r : j' < r.length := by
      rw [hr] at hjl
      simpa using hjl
    have h0 := List.getElem_of_eq hr hjl
    simp only [List.getElem_cons_succ] at h0
    have hrj : r[j'] = n := h0.symm.trans hEq
    exact hrj ▸ List.getElem_mem hj'r
  obtain ⟨f, hf1, hf2, hf3, hf4⟩ := b6 n hmemdrop
  obtain ⟨i, hi, hfi⟩ := List.mem_iff_getElem.mp hf1
  -- f carries id 1 + i
  have hgi : f.getIno = 1 + i := by
    have hi' : i < ((buildNode 1 0 t0).listRec.map INode.getIno).length := by
      simpa using hi
    have hgel := List.getElem_of_eq b5 hi'
    rw [List.getElem_map] at hgel
    rw [List.getElem_range'] at hgel
    rw [hfi] at hgel
    simpa using hgel
  -- resolve the parent id back to f
  have hwrap : wrapIdx n.getParent = i := by
    rw [hf3, hgi]
    unfold wrapIdx
    have he : 1 + i + (2 ^ 64 - 1) = i + 2 ^ 64 := by omega
    rw [he, Nat.add_mod_right, Nat.mod_eq_of_lt (by omega)]
  cases f with
  | file fi fp fn ft => simp [INode.isFolder] at hf2
  | folder fi fp fn fes =>
    refine ⟨fi, fp, fn, fes, ?_, hf4⟩
    show ((buildNode 1 0 t0).listRec).get? (wrapIdx n.getParent) = _
    rw [hwrap, List.get?_eq_getElem?, List.getElem?_eq_getElem hi, hfi]

/-- Witness for C9 on the one-leaf tree: the leaf at table position 1 has
root (id 1) as its resolved parent folder, holding it under `"a.txt"`. -/
theorem identity_parent_consistency_witness :
    (INodeTable.fromRoot treeOneLeaf).root.getParent = 0 ∧
    ∃ pi pp : Nat, ∃ pn : String, ∃ pes : List (String × INode),
      (INodeTable.fromRoot treeOneLeaf).getByIno
          (INode.file 2 1 "a.txt" "/etc/hostname").getParent =
        some (.folder pi pp pn pes) ∧
      List.lookup (INode.file 2 1 "a.txt" "/etc/hostname").getName pes =
        some (INode.file 2 1 "a.txt" "/etc/hostname") := by
  have h := identity_parent_consistency treeOneLeaf
    (by simp [treeOneLeaf, NameConsistent, NameConsistentL, INode.getName])
    (by simp [treeOneLeaf, UniqueKeys, UniqueKeysL, UniqueKeysL])
    (by decide)
  exact ⟨h.1, h.2 1 (by decide) (INode.file 2 1 "a.txt" "/etc/hostname") rfl⟩

/-- C10: a lookup request whose name argument is not decodable as UTF-8
(`name.to_str()` returns `None`, src/main.rs lines 150-153) is answered
with `ENOENT` for every parent id and every table — the Node Graph is never
consulted. -/
theorem lookup_non_utf8_enoent (fs : INodeTable)
    (stat : String → Option HostMeta) (parent : Nat) :
    fsLookup fs stat parent none = .error ENOENT :=
  rfl

end FsProxy
